import Mathlib

/-!
# SupperNanny: file-access filter, policy loader, exec audit and policy buffer

A shallow embedding of the C sources

* `file_filter.bpf.c` (`is_restricted_process`, `tracepoint_sys_enter_openat`,
  `kprobe__sys_openat` and their three hash maps),
* `bpf_pass_data.c` (`main`, the policy loader),
* `supernanny_interceptor/src/ebpf/kern/exec_intercept.c` (`exec_intercept`),
* `supernanny_module.c` (`super_nanny_proc_write`),

followed by the properties established about them.

Conventions: a byte is a `Fin 256`; a C array `char[n]` is a list of exactly `n`
bytes; `u32` and `size_t` values are naturals reduced modulo `2^32` and `2^64`
where the source computes them; kernel helpers whose outcome depends on the
machine (current task, user memory) take that outcome from an explicit context
record; a BPF hash map is a duplicate-free association list that never holds
more than `max_entries` keys.
-/

set_option maxRecDepth 8000

namespace SupperNanny

/-! ## Bytes and fixed-width buffers -/

/-- Byte of memory. -/
abbrev Byte := Fin 256

/-- Fixed-width array `char[n]`. -/
abbrev Buf (n : Nat) := { l : List Byte // l.length = n }

/-- Array `char[n] = {0}`. -/
def Buf.zero (n : Nat) : Buf n := ⟨List.replicate n 0, List.length_replicate n 0⟩

/-- Bytes `l` laid at the start of a zeroed `char[n]`, cut at `n` bytes. -/
def Buf.ofList (n : Nat) (l : List Byte) : Buf n :=
  ⟨(l ++ List.replicate n 0).take n, by simp⟩

/-- Content of a C string: the bytes before the first NUL. -/
def cstr (l : List Byte) : List Byte := l.takeWhile (fun b => b ≠ 0)

/-- C `memcmp(a, b, n)` (also `__builtin_memcmp`): zero when the first `n` bytes agree,
otherwise the difference of the first two bytes that differ. Both arguments hold at
least `n` bytes at every call site. -/
def memcmp : List Byte → List Byte → Nat → Int
  | _, _, 0 => 0
  | [], _, _ + 1 => 0
  | _ :: _, [], _ + 1 => 0
  | x :: xs, y :: ys, n + 1 =>
    if x = y then memcmp xs ys n else (x.val : Int) - (y.val : Int)

/-! ## BPF hash maps -/

/-- Value stored under `k` in an association list. -/
def lookupList {K V : Type} [DecidableEq K] (k : K) : List (K × V) → Option V
  | [] => none
  | (k1, v1) :: rest => if k1 = k then some v1 else lookupList k rest

/-- Association list with the value of key `k` replaced by `v`. -/
def replaceList {K V : Type} [DecidableEq K] (k : K) (v : V) : List (K × V) → List (K × V)
  | [] => []
  | (k1, v1) :: rest => if k1 = k then (k1, v) :: rest else (k1, v1) :: replaceList k v rest

/-- Map of type `BPF_MAP_TYPE_HASH` declared with `max_entries`: distinct keys, never
more than `max_entries` of them. -/
structure BpfHash (K V : Type) [DecidableEq K] (max_entries : Nat) where
  entries : List (K × V)
  nodup : (entries.map Prod.fst).Nodup
  bounded : entries.length ≤ max_entries

namespace BpfHash

variable {K V : Type} [DecidableEq K] {cap : Nat}

/-- Map with no entry, as created when the object is loaded. -/
def empty : BpfHash K V cap := ⟨[], List.nodup_nil, Nat.zero_le _⟩

/-- Helper `bpf_map_lookup_elem`: the stored value, `none` for the NULL result. -/
def lookup (m : BpfHash K V cap) (k : K) : Option V := lookupList k m.entries

/-- Number of keys held. -/
def count (m : BpfHash K V cap) : Nat := m.entries.length

/-- Error number `E2BIG`. -/
def E2BIG : Int := 7

/-- Helper `bpf_map_update_elem(map, key, value, BPF_ANY)`: an existing key has its value
replaced; a new key is inserted while fewer than `max_entries` keys are held; a new key
on a full map fails with `-E2BIG` and changes nothing. -/
def update (m : BpfHash K V cap) (k : K) (v : V) : Int × BpfHash K V cap :=
  if hsome : (lookupList k m.entries).isSome then
    have hkeys : ∀ l : List (K × V), (replaceList k v l).map Prod.fst = l.map Prod.fst := by
      intro l
      induction l with
      | nil => rfl
      | cons e rest ih =>
        obtain ⟨k1, v1⟩ := e
        by_cases h : k1 = k <;> simp [replaceList, h, ih]
    (0, ⟨replaceList k v m.entries, by rw [hkeys]; exact m.nodup,
      by
        have hlen := congrArg List.length (hkeys m.entries)
        simp only [List.length_map] at hlen
        rw [hlen]
        exact m.bounded⟩)
  else if hroom : m.entries.length < cap then
    have hnew : ∀ l : List (K × V), ¬ (lookupList k l).isSome → k ∉ l.map Prod.fst := by
      intro l
      induction l with
      | nil => simp
      | cons e rest ih =>
        obtain ⟨k1, v1⟩ := e
        by_cases h : k1 = k
        · simp [lookupList, h]
        · have h2 : ¬ k = k1 := fun e => h e.symm
          simpa [lookupList, h, h2] using ih
    (0, ⟨(k, v) :: m.entries, by
      simpa [List.nodup_cons] using And.intro (hnew m.entries hsome) m.nodup,
      by simpa using hroom⟩)
  else
    (-E2BIG, m)

end BpfHash

/-! ## file_filter.bpf.c -/

/-- Constant `MAX_KEY_LEN`. -/
def MAX_KEY_LEN : Nat := 32

/-- Constant `MAX_VALUE_LEN`. -/
def MAX_VALUE_LEN : Nat := 128

/-- Error number `EACCES`. -/
def EACCES : Int := 13

/-- Error number `EFAULT`. -/
def EFAULT : Int := 14

/-- The three maps of `file_filter.bpf.c`, each declared with 1024 entries. -/
structure Maps where
  app_file_map : BpfHash (Buf 32) (Buf 128) 1024
  current_task_map : BpfHash Nat (Buf 128) 1024
  parent_map : BpfHash Nat Nat 1024

/-- Expression `bpf_get_current_pid_tgid() >> 32` stored in a `u32`. -/
def pid_of (pid_tgid : Nat) : Nat := ((pid_tgid % (2 ^ 64)) >>> 32) % (2 ^ 32)

/-- Helper `bpf_probe_read_user_str(dst, size, src)` for a non-NULL `src`. The user memory at
`src` is `none` when reading it faults and `some s` when it holds the C string `cstr s`.
On success the first `size - 1` bytes of the string and a NUL are copied over the start of
`dst` and the count of bytes written is returned; on a fault `dst` is zeroed and `-EFAULT`
is returned. -/
def bpf_probe_read_user_str {n : Nat} (dst : Buf n) (src : Option (List Byte)) : Int × Buf n :=
  match src with
  | none => (-EFAULT, Buf.zero n)
  | some s =>
    if hn : n = 0 then (0, dst) else
    let body := (cstr s).take (n - 1)
    ((body.length : Int) + 1,
      ⟨body ++ 0 :: dst.1.drop (body.length + 1), by
        have hd : dst.1.length = n := dst.2
        have hb : body.length ≤ n - 1 := List.length_take_le _ _
        rw [List.length_append, List.length_cons, List.length_drop, hd]
        omega⟩)

/-- Bytes of a `u32` as they lie in memory on the little-endian x86-64 the program is built
for (`kprobe/__x64_sys_openat`). -/
def le32 (x : Nat) : List Byte :=
  [Fin.ofNat (x % 256), Fin.ofNat (x / 256 % 256), Fin.ofNat (x / 65536 % 256),
    Fin.ofNat (x / 16777216 % 256)]

/-- The 32 key bytes read by `bpf_map_lookup_elem(&app_file_map, &current_pid)`: the map has
`char[32]` keys while `current_pid` is a 4-byte `u32`, so the key is the four bytes of the
id followed by the 28 bytes `adj` that lie next to the variable at that moment. -/
def key_at_current_pid (current_pid : Nat) (adj : Buf 28) : Buf 32 :=
  ⟨le32 current_pid ++ adj.1, by rw [List.length_append, adj.2]; rfl⟩

/-- Function `is_restricted_process` of the source, its `while (true)` loop run for at most `fuel`
iterations: `some 1` and `some 0` are the two return values, `none` means the loop is still
running when the fuel is spent. The source does not fix the 28 bytes that follow
`current_pid` in memory; `adjacent i` gives them as they are found by the policy lookup of
the `i`-th iteration from now. -/
def is_restricted_process (m : Maps) (restricted_file_path : Buf 128) :
    Nat → (Nat → Buf 28) → Nat → Option Int
  | 0, _, _ => none
  | fuel + 1, adjacent, current_pid =>
    if (match m.app_file_map.lookup (key_at_current_pid current_pid (adjacent 0)) with
        | some restricted_path =>
          decide (memcmp restricted_path.1 restricted_file_path.1 MAX_VALUE_LEN = 0)
        | none => false) then
      some 1
    else
      match m.parent_map.lookup current_pid with
      | none => some 0
      | some parent_pid =>
        is_restricted_process m restricted_file_path fuel (fun i => adjacent (i + 1)) parent_pid

/-- Machine state seen by `tracepoint_sys_enter_openat`. -/
structure TraceCtx where
  /-- Result of `bpf_get_current_pid_tgid()`. -/
  pid_tgid : Nat
  /-- Buffer `app_name` after `bpf_get_current_comm`, `none` when the helper does not return 0. -/
  comm : Option (Buf 32)
  /-- Argument `ctx->args[1]`: `none` for a NULL pointer, else the user memory it points to. -/
  user_file_path : Option (Option (List Byte))
  /-- Result of `bpf_get_current_task()` (`none` for NULL), then of reading `task->real_parent`
  (`none` for NULL), then the `tgid` read from the parent. -/
  task : Option (Option Nat)

/-- The entry stage `tracepoint_sys_enter_openat`: return value and maps afterwards. -/
def tracepoint_sys_enter_openat (m : Maps) (ctx : TraceCtx) : Int × Maps :=
  let file_path : Buf 128 := Buf.zero 128
  let pid := pid_of ctx.pid_tgid
  match ctx.comm with
  | none => (0, m)
  | some _app_name =>
    match ctx.user_file_path with
    | none => (0, m)
    | some user_mem =>
      let r := bpf_probe_read_user_str file_path user_mem
      if r.1 > 0 then
        let file_path := r.2
        let m1 : Maps :=
          match ctx.task with
          | some (some tgid) =>
            let ppid := tgid % (2 ^ 32)
            { m with parent_map := (m.parent_map.update pid ppid).2 }
          | some none => m
          | none => m
        (0, { m1 with current_task_map := (m1.current_task_map.update pid file_path).2 })
      else
        (0, m)

/-- Machine state seen by `kprobe__sys_openat`. -/
structure KprobeCtx where
  /-- Result of `bpf_get_current_pid_tgid()`. -/
  pid_tgid : Nat
  /-- Buffer `app_name` after `bpf_get_current_comm`, `none` when the helper does not return 0. -/
  comm : Option (Buf 32)
  /-- Whether `bpf_probe_read` of the staged map value returns 0. -/
  map_read_ok : Bool

/-- Outcome of the enforcement stage: its return value and the value handed to
`bpf_override_return`, if the helper was called. -/
structure KprobeResult where
  ret : Int
  override : Option Int
deriving DecidableEq, Repr

/-- The enforcement stage `kprobe__sys_openat`. -/
def kprobe__sys_openat (m : Maps) (ctx : KprobeCtx) : KprobeResult :=
  let pid := pid_of ctx.pid_tgid
  let key := pid
  match ctx.comm with
  | none => ⟨0, none⟩
  | some app_name =>
    match m.current_task_map.lookup key with
    | none => ⟨0, none⟩
    | some tmp_file_path =>
      if ctx.map_read_ok = false then ⟨0, none⟩ else
      let file_path : Buf 128 := tmp_file_path
      match m.app_file_map.lookup app_name with
      | some restricted_path =>
        if memcmp restricted_path.1 file_path.1 MAX_VALUE_LEN = 0 then
          ⟨0, some (-EACCES)⟩
        else
          ⟨0, none⟩
      | none => ⟨0, none⟩


/-- Staging write made by one invocation of the entry stage: the process id and the 128-byte
path passed to the `bpf_map_update_elem` on `current_task_map`, `none` when the invocation
returns before that call. -/
def staging_write (ctx : TraceCtx) : Option (Nat × Buf 128) :=
  match ctx.comm with
  | none => none
  | some _ =>
    match ctx.user_file_path with
    | none => none
    | some user_mem =>
      let r := bpf_probe_read_user_str (Buf.zero 128) user_mem
      if r.1 > 0 then some (pid_of ctx.pid_tgid, r.2) else none

/-- Maps after the entry stage has run once for each context of a sequence, in order. -/
def run_tracepoints (m : Maps) (seq : List TraceCtx) : Maps :=
  seq.foldl (fun acc ctx => (tracepoint_sys_enter_openat acc ctx).2) m

/-- Path of the last staging write made for `pid` in a sequence of invocations. -/
def last_staged (pid : Nat) : List TraceCtx → Option (Buf 128)
  | [] => none
  | ctx :: rest =>
    match last_staged pid rest with
    | some path => some path
    | none =>
      match staging_write ctx with
      | some (q, path) => if q = pid then some path else none
      | none => none

/-! ## supernanny_module.c -/

/-- Error number `ENOMEM`. -/
def ENOMEM : Int := 12

/-- Globals of the module: the region `file_buffer` obtained from `kmalloc(PAGE_SIZE)` and the
counter `buffer_size`. -/
structure ProcState where
  file_buffer : List Byte
  buffer_size : Nat
deriving DecidableEq, Repr

/-- Outcome of one call of `super_nanny_proc_write`: a return value with the globals afterwards,
or a store at an index past the end of the `file_buffer` region. -/
inductive WriteOutcome where
  | ret (value : Int) (st : ProcState)
  | out_of_bounds (index : Nat)
deriving DecidableEq, Repr

/-- Bytes `src` copied over `dst` from offset `off`, as far as `dst` reaches. -/
def blit (dst : List Byte) (off : Nat) (src : List Byte) : List Byte :=
  dst.take off ++ src.take (dst.length - off) ++ dst.drop (off + src.length)

/-- Store `file_buffer[i] = b`, `none` when `i` lies outside the region. -/
def store_byte (buf : List Byte) (i : Nat) (b : Byte) : Option (List Byte) :=
  if i < buf.length then some (buf.set i b) else none

/-- Function `super_nanny_proc_write` of the source. `PAGE_SIZE` is the kernel constant, `buffer` the
`len = buffer.length` bytes at the user pointer, and `fault_at = some c` says that
`copy_from_user` faults after `c` bytes (it then zero-fills the rest of the destination and
reports a nonzero count). Values of type `size_t` are reduced modulo `2^64`. -/
def super_nanny_proc_write (PAGE_SIZE : Nat) (st : ProcState) (buffer : List Byte)
    (fault_at : Option Nat) : WriteOutcome :=
  let len := buffer.length % 2 ^ 64
  if (len + st.buffer_size) % 2 ^ 64 > PAGE_SIZE then
    WriteOutcome.ret (-ENOMEM) st
  else
    match fault_at with
    | some c =>
      let copied := buffer.take c ++ List.replicate (len - c) 0
      WriteOutcome.ret (-EFAULT)
        { file_buffer := blit st.file_buffer st.buffer_size copied, buffer_size := st.buffer_size }
    | none =>
      let file_buffer := blit st.file_buffer st.buffer_size buffer
      let buffer_size := (st.buffer_size + len) % 2 ^ 64
      match store_byte file_buffer buffer_size 0 with
      | none => WriteOutcome.out_of_bounds buffer_size
      | some file_buffer1 =>
        WriteOutcome.ret len { file_buffer := file_buffer1, buffer_size := buffer_size }

/-! ## exec_intercept.c -/

/-- Constant `ARG_LEN`. -/
def ARG_LEN : Nat := 64

/-- Constant `MAX_KEY`. -/
def MAX_KEY : Nat := 32

/-- Constant `MAX_VALUE`. -/
def MAX_VALUE : Nat := 128

/-- The pinned map `/sys/fs/bpf/app_file_map` as seen by the loader. -/
abbrev PolicyMap := BpfHash (Buf 32) (Buf 128) 1024

/-- C `strchr(line, c)` on the bytes of a C string: offset of the first `c`, `none` for NULL. -/
def strchr (c : Byte) : List Byte → Option Nat
  | [] => none
  | b :: rest => if b = c then some 0 else (strchr c rest).map (fun d => d + 1)

/-- Tokens returned by the successive calls `strtok_r(buffer, "\n", &saveptr)`,
`strtok_r(NULL, "\n", &saveptr)`, ... on a C string: its maximal runs of bytes other than
the newline, in order. `cur` collects the token being scanned. -/
def strtok_lines : List Byte → List Byte → List (List Byte)
  | [], cur => if cur = [] then [] else [cur]
  | b :: rest, cur =>
    if b = 10 then
      if cur = [] then strtok_lines rest [] else cur :: strtok_lines rest []
    else strtok_lines rest (cur ++ [b])

/-- How `main` of the loader ends: an exit code with the map as it is then (`none` when the map
was never opened), or a write past the 32-byte array `key` for a name of `length` bytes. -/
inductive LoaderOutcome where
  | exit (code : Nat) (map : Option PolicyMap)
  | key_overflow (length : Nat)

/-- The `while (line != NULL)` loop of `main` over the tokens still to come. -/
def load_lines : List (List Byte) → PolicyMap → LoaderOutcome
  | [], m => LoaderOutcome.exit 0 (some m)
  | line :: rest, m =>
    match strchr 58 line with
    | none => load_lines rest m
    | some d =>
      if MAX_KEY ≤ d then LoaderOutcome.key_overflow d
      else
        let key : Buf 32 := Buf.ofList 32 (line.take d)
        let value : Buf 128 := Buf.ofList 128 ((line.drop (d + 1)).take (MAX_VALUE - 1))
        let r := m.update key value
        if r.1 < 0 then LoaderOutcome.exit 1 (some r.2) else load_lines rest r.2

/-- Function `main` of the loader. `map_fd` is the map behind `bpf_obj_get` (`none` when it
fails); `proc_file` is `none` when `open` fails, `some none` when `read` fails, else the
content of `/proc/super_nanny/file_list`, of which `read` takes at most 1023 bytes. -/
def main (map_fd : Option PolicyMap) (proc_file : Option (Option (List Byte))) : LoaderOutcome :=
  match map_fd with
  | none => LoaderOutcome.exit 1 none
  | some m =>
    match proc_file with
    | none => LoaderOutcome.exit 1 (some m)
    | some none => LoaderOutcome.exit 1 (some m)
    | some (some content) =>
      let buffer := content.take (1024 - 1)
      load_lines (strtok_lines (cstr buffer) []) m

/-- Map left by the loader, `none` unless it exits with code 0. -/
def LoaderOutcome.loaded : LoaderOutcome → Option PolicyMap
  | LoaderOutcome.exit 0 (some m) => some m
  | _ => none

/-- Line `name:path` of the distribution format. -/
def render (r : List Byte × List Byte) : List Byte := r.1 ++ 58 :: r.2

/-- Text of newline-separated `name:path` records. -/
def policy_text : List (List Byte × List Byte) → List Byte
  | [] => []
  | [r] => render r
  | r :: r2 :: rest => render r ++ 10 :: policy_text (r2 :: rest)

/-- Key under which the loader files a record: the name in a zeroed `char[32]`. -/
def rec_key (r : List Byte × List Byte) : Buf 32 := Buf.ofList 32 r.1

/-- Value the loader files for a record: the first 127 bytes of the path in a zeroed `char[128]`. -/
def rec_value (r : List Byte × List Byte) : Buf 128 := Buf.ofList 128 (r.2.take 127)

/-- Value of the last record filed under key `k`. -/
def last_value (k : Buf 32) : List (List Byte × List Byte) → Option (Buf 128)
  | [] => none
  | r :: rest =>
    match last_value k rest with
    | some v => some v
    | none => if rec_key r = k then some (rec_value r) else none

/-- Record of the distribution format the loader can take: a name shorter than 32 bytes without
colon, newline or NUL, and a path without newline or NUL. -/
def well_formed (r : List Byte × List Byte) : Prop :=
  r.1.length < 32 ∧ (58 : Byte) ∉ r.1 ∧ (10 : Byte) ∉ r.1 ∧ (0 : Byte) ∉ r.1 ∧
    (10 : Byte) ∉ r.2 ∧ (0 : Byte) ∉ r.2

instance (r : List Byte × List Byte) : Decidable (well_formed r) := by
  unfold well_formed
  infer_instance

/-- Process id reached from `pid` after `k` successful parent lookups in `parent_map`. -/
def ancestor (m : Maps) : Nat → Nat → Option Nat
  | 0, pid => some pid
  | k + 1, pid => (m.parent_map.lookup pid).bind (ancestor m k)

/-! ### Sample data -/

/-- Policy key made of the four bytes of a process id padded with zeros to the key width: the
key of a policy entry filed under a process id. -/
def id_label (pid : Nat) : Buf 32 := Buf.ofList 32 (le32 pid)

/-- Bytes found next to `current_pid` in a sample run: 28 bytes `0xff` in every iteration. -/
def adjacent_sample : Nat → Buf 28 := fun _ => Buf.ofList 28 (List.replicate 28 255)

/-- Name `parent` as a 32-byte key. -/
def name_parent : Buf 32 := Buf.ofList 32 [112, 97, 114, 101, 110, 116]

/-- Name `child` as a 32-byte key. -/
def name_child : Buf 32 := Buf.ofList 32 [99, 104, 105, 108, 100]

/-- Path `/etc/passwd` as a 128-byte value. -/
def path_passwd : Buf 128 := Buf.ofList 128 [47, 101, 116, 99, 47, 112, 97, 115, 115, 119, 100]

/-- Path `/etc/hosts` as a 128-byte value. -/
def path_hosts : Buf 128 := Buf.ofList 128 [47, 101, 116, 99, 47, 104, 111, 115, 116, 115]

/-- Maps in which process 100, named `parent`, is restricted on `/etc/passwd` (by an entry
under its name and by one under its id), process 200 has parent 100, and process 200 has
staged `/etc/passwd`. -/
def maps_child : Maps where
  app_file_map :=
    ((BpfHash.empty.update name_parent path_passwd).2.update (id_label 100) path_passwd).2
  current_task_map := (BpfHash.empty.update 200 path_passwd).2
  parent_map := (BpfHash.empty.update 200 100).2

/-- The maps `maps_child` with `/etc/hosts` staged by process 200 instead. -/
def maps_child_hosts : Maps :=
  { maps_child with current_task_map := (maps_child.current_task_map.update 200 path_hosts).2 }

/-- Process 200, named `child`, at the enforcement stage. -/
def ctx_child : KprobeCtx := { pid_tgid := 200 * 2 ^ 32, comm := some name_child, map_read_ok := true }

/-- Record `a:x...x` whose path is 128 bytes `x`. -/
def rec_long_path : List Byte × List Byte := ([97], List.replicate 128 120)

/-- Records `sh:/etc/passwd`, `ls:/etc/hosts`, `sh:/etc/hosts`. -/
def recs_sample : List (List Byte × List Byte) :=
  [([115, 104], [47, 101, 116, 99, 47, 112, 97, 115, 115, 119, 100]),
   ([108, 115], [47, 101, 116, 99, 47, 104, 111, 115, 116, 115]),
   ([115, 104], [47, 101, 116, 99, 47, 104, 111, 115, 116, 115])]

/-- Invocation of the entry stage by process `i` opening the path `/`. -/
def stage_ctx (i : Nat) : TraceCtx :=
  { pid_tgid := i * 2 ^ 32, comm := some name_child, user_file_path := some (some [47]),
    task := none }

/-- Buffer staged by `stage_ctx`: the path `/`. -/
def path_root : Buf 128 := (bpf_probe_read_user_str (Buf.zero 128) (some [47])).2

/-- Maps with no entry at all. -/
def maps_empty : Maps where
  app_file_map := BpfHash.empty
  current_task_map := BpfHash.empty
  parent_map := BpfHash.empty

/-! ## Properties of the hash maps -/

theorem map_fst_replaceList {K V : Type} [DecidableEq K] (k : K) (v : V) (l : List (K × V)) :
    (replaceList k v l).map Prod.fst = l.map Prod.fst := by
  induction l with
  | nil => rfl
  | cons e rest ih =>
    obtain ⟨k1, v1⟩ := e
    by_cases h : k1 = k <;> simp [replaceList, h, ih]

theorem length_replaceList {K V : Type} [DecidableEq K] (k : K) (v : V) (l : List (K × V)) :
    (replaceList k v l).length = l.length := by
  have h := congrArg List.length (map_fst_replaceList k v l)
  simpa using h

theorem lookupList_eq_none {K V : Type} [DecidableEq K] (k : K) (l : List (K × V)) :
    lookupList k l = none ↔ k ∉ l.map Prod.fst := by
  induction l with
  | nil => simp [lookupList]
  | cons e rest ih =>
    obtain ⟨k1, v1⟩ := e
    by_cases h : k1 = k
    · simp [lookupList, h]
    · have h2 : ¬ k = k1 := fun e => h e.symm
      simp [lookupList, h, h2, ih]

theorem lookupList_replaceList_self {K V : Type} [DecidableEq K] (k : K) (v : V)
    (l : List (K × V)) (h : (lookupList k l).isSome) :
    lookupList k (replaceList k v l) = some v := by
  induction l with
  | nil => simp [lookupList] at h
  | cons e rest ih =>
    obtain ⟨k1, v1⟩ := e
    by_cases hk : k1 = k
    · simp [lookupList, replaceList, hk]
    · simp only [lookupList, hk, if_false] at h
      simp [lookupList, replaceList, hk, ih h]

theorem lookupList_replaceList_ne {K V : Type} [DecidableEq K] (k k2 : K) (v : V)
    (l : List (K × V)) (h : k2 ≠ k) :
    lookupList k2 (replaceList k v l) = lookupList k2 l := by
  induction l with
  | nil => rfl
  | cons e rest ih =>
    obtain ⟨k1, v1⟩ := e
    by_cases hk : k1 = k
    · subst hk
      have h3 : ¬ k1 = k2 := fun e => h e.symm
      simp [lookupList, replaceList, h3]
    · by_cases hk2 : k1 = k2
      · subst hk2
        simp [lookupList, replaceList, hk]
      · simp [lookupList, replaceList, hk, hk2, ih]

/-! ## Properties of file_filter.bpf.c -/

theorem memcmp_eq_zero_iff : ∀ (n : Nat) (a b : List Byte), a.length = n → b.length = n →
    (memcmp a b n = 0 ↔ a = b)
  | 0, a, b, ha, hb => by
    have h1 : a = [] := List.length_eq_zero.1 ha
    have h2 : b = [] := List.length_eq_zero.1 hb
    subst h1; subst h2; simp [memcmp]
  | n + 1, [], _, ha, _ => by simp at ha
  | n + 1, _ :: _, [], _, hb => by simp at hb
  | n + 1, x :: xs, y :: ys, ha, hb => by
    have ha1 : xs.length = n := by simpa using ha
    have hb1 : ys.length = n := by simpa using hb
    by_cases hxy : x = y
    · simp [memcmp, hxy, memcmp_eq_zero_iff n xs ys ha1 hb1]
    · have hv : (x.val : Int) - (y.val : Int) ≠ 0 := by
        intro h
        apply hxy
        apply Fin.ext
        omega
      simp [memcmp, hxy, hv]

theorem memcmp_buf (a b : Buf 128) : memcmp a.1 b.1 MAX_VALUE_LEN = 0 ↔ a = b := by
  rw [MAX_VALUE_LEN, memcmp_eq_zero_iff 128 a.1 b.1 a.2 b.2]
  exact ⟨fun h => Subtype.ext h, fun h => congrArg Subtype.val h⟩


/-- C1: when the policy table maps the name `N` to the path `X`, the enforcement stage run by
a process named `N` (whose read of its staged path succeeds) overrides the return value with
`-EACCES` if the staged path `P` equals `X`, and does not override it if `P` differs from `X`
in any of the 128 bytes. -/
theorem kprobe_exact_name_policy (m : Maps) (ctx : KprobeCtx) (N : Buf 32) (X P : Buf 128)
    (hname : ctx.comm = some N) (hread : ctx.map_read_ok = true)
    (hpolicy : m.app_file_map.lookup N = some X)
    (hstaged : m.current_task_map.lookup (pid_of ctx.pid_tgid) = some P) :
    (P = X → (kprobe__sys_openat m ctx).override = some (-EACCES)) ∧
    (∀ i, i < 128 → P.1[i]? ≠ X.1[i]? → (kprobe__sys_openat m ctx).override = none) := by
  constructor
  · intro hPX
    have hcmp : memcmp X.1 P.1 MAX_VALUE_LEN = 0 := (memcmp_buf X P).2 hPX.symm
    simp [kprobe__sys_openat, hname, hread, hpolicy, hstaged, hcmp]
  · intro i _ hi
    have hne : ¬ memcmp X.1 P.1 MAX_VALUE_LEN = 0 := by
      intro h
      have hXP : X = P := (memcmp_buf X P).1 h
      exact hi (by rw [hXP])
    simp [kprobe__sys_openat, hname, hread, hpolicy, hstaged, hne]

/-- Witness for C1: the process named `parent` of the sample maps is denied with
`/etc/passwd` staged and allowed with `/etc/hosts` staged. -/
theorem kprobe_exact_name_policy_witness :
    (kprobe__sys_openat maps_child
      { pid_tgid := 200 * 2 ^ 32, comm := some name_parent, map_read_ok := true }).override
      = some (-EACCES) ∧
    (kprobe__sys_openat maps_child_hosts
      { pid_tgid := 200 * 2 ^ 32, comm := some name_parent, map_read_ok := true }).override
      = none :=
  ⟨(kprobe_exact_name_policy maps_child
      { pid_tgid := 200 * 2 ^ 32, comm := some name_parent, map_read_ok := true }
      name_parent path_passwd path_passwd rfl rfl (by decide) (by decide)).1 rfl,
   (kprobe_exact_name_policy maps_child_hosts
      { pid_tgid := 200 * 2 ^ 32, comm := some name_parent, map_read_ok := true }
      name_parent path_passwd path_hosts rfl rfl (by decide) (by decide)).2 5 (by decide)
      (by decide)⟩

/-- C2, the code at the failing input: process 200 (named `child`) has the restricted process
100 as its recorded parent and has staged the restricted path, yet the enforcement stage does
not override the return value. -/
theorem kprobe_ignores_restricted_ancestor :
    maps_child.parent_map.lookup 200 = some 100 ∧
    maps_child.app_file_map.lookup name_parent = some path_passwd ∧
    maps_child.current_task_map.lookup (pid_of ctx_child.pid_tgid) = some path_passwd ∧
    kprobe__sys_openat maps_child ctx_child = ⟨0, none⟩ := by
  decide


/-- C7: when the policy table has no entry for the name of the calling process and no process
reachable from it through the ancestry table has a policy entry, the enforcement stage does
not override the return value, whatever the tables and the staged path are. -/
theorem kprobe_allows_unrestricted (m : Maps) (ctx : KprobeCtx) (key_at : Nat → Buf 32)
    (hname : ∀ N, ctx.comm = some N → m.app_file_map.lookup N = none)
    (_hanc : ∀ k q, ancestor m k (pid_of ctx.pid_tgid) = some q →
      m.app_file_map.lookup (key_at q) = none) :
    kprobe__sys_openat m ctx = ⟨0, none⟩ := by
  unfold kprobe__sys_openat
  cases hc : ctx.comm with
  | none => rfl
  | some N =>
    have hN := hname N hc
    cases hs : m.current_task_map.lookup (pid_of ctx.pid_tgid) with
    | none => simp [hs]
    | some P => cases hr : ctx.map_read_ok <;> simp [hs, hr, hN]

/-- Witness for C7: process 200 named `child` on maps without any policy entry, with a
recorded parent and a staged path. -/
theorem kprobe_allows_unrestricted_witness :
    kprobe__sys_openat
      { app_file_map := BpfHash.empty,
        current_task_map := maps_child.current_task_map,
        parent_map := maps_child.parent_map } ctx_child = ⟨0, none⟩ :=
  kprobe_allows_unrestricted _ ctx_child id_label (fun _ _ => rfl) (fun _ _ _ => rfl)

/-- C8: an invocation of the entry stage whose path pointer is NULL, or whose read of the
path from user memory fails (result not above 0), returns 0 and leaves all three maps,
the ancestry and staging tables among them, exactly as they were; and every invocation of
the entry stage returns 0. -/
theorem tracepoint_fail_open (m : Maps) (ctx : TraceCtx)
    (hfail : ctx.user_file_path = none ∨
      ∃ mem, ctx.user_file_path = some mem ∧
        (bpf_probe_read_user_str (Buf.zero 128) mem).1 ≤ 0) :
    tracepoint_sys_enter_openat m ctx = (0, m) ∧
    ∀ (m1 : Maps) (ctx1 : TraceCtx), (tracepoint_sys_enter_openat m1 ctx1).1 = 0 := by
  constructor
  · unfold tracepoint_sys_enter_openat
    cases hc : ctx.comm with
    | none => rfl
    | some N =>
      rcases hfail with h | ⟨mem, h, hle⟩
      · simp [h]
      · have hnot : ¬ (bpf_probe_read_user_str (Buf.zero 128) mem).1 > 0 := not_lt.2 hle
        simp [h, hnot]
  · intro m1 ctx1
    unfold tracepoint_sys_enter_openat
    cases hc : ctx1.comm with
    | none => rfl
    | some N =>
      cases hu : ctx1.user_file_path with
      | none => rfl
      | some mem =>
        by_cases hpos : (bpf_probe_read_user_str (Buf.zero 128) mem).1 > 0 <;> simp [hpos]

/-- Witness for C8: process 200 passes a path pointer whose memory cannot be read. -/
theorem tracepoint_fail_open_witness :
    tracepoint_sys_enter_openat maps_child
      { pid_tgid := 200 * 2 ^ 32, comm := some name_child, user_file_path := some none,
        task := some (some 100) } = (0, maps_child) ∧
    ∀ (m1 : Maps) (ctx1 : TraceCtx), (tracepoint_sys_enter_openat m1 ctx1).1 = 0 :=
  tracepoint_fail_open maps_child
    { pid_tgid := 200 * 2 ^ 32, comm := some name_child, user_file_path := some none,
      task := some (some 100) }
    (Or.inr ⟨none, rfl, by decide⟩)


/-! ### The ancestry walk -/

theorem is_restricted_process_succ (m : Maps) (target : Buf 128) (fuel : Nat)
    (adjacent : Nat → Buf 28) (pid : Nat) :
    is_restricted_process m target (fuel + 1) adjacent pid =
      if m.app_file_map.lookup (key_at_current_pid pid (adjacent 0)) = some target then some 1
      else match m.parent_map.lookup pid with
        | none => some 0
        | some parent_pid =>
          is_restricted_process m target fuel (fun i => adjacent (i + 1)) parent_pid := by
  rw [is_restricted_process]
  by_cases hhit : m.app_file_map.lookup (key_at_current_pid pid (adjacent 0)) = some target
  · rw [if_pos hhit, if_pos]
    rw [hhit]
    exact decide_eq_true ((memcmp_buf target target).2 rfl)
  · rw [if_neg hhit, if_neg]
    cases hl : m.app_file_map.lookup (key_at_current_pid pid (adjacent 0)) with
    | none => simp
    | some rp =>
      have hrp : rp ≠ target := fun e => hhit (by rw [hl, e])
      have h0 : ¬ memcmp rp.1 target.1 MAX_VALUE_LEN = 0 :=
        fun h => hrp ((memcmp_buf rp target).1 h)
      simp [h0]

theorem maps_child_policy_entries :
    maps_child.app_file_map.entries =
      [(id_label 100, path_passwd), (name_parent, path_passwd)] := by
  decide

theorem maps_child_lookup_none (key : Buf 32) (h1 : id_label 100 ≠ key)
    (h2 : name_parent ≠ key) : maps_child.app_file_map.lookup key = none := by
  unfold BpfHash.lookup
  rw [maps_child_policy_entries]
  simp [lookupList, h1, h2]

theorem key_at_current_pid_head (pid : Nat) (adj : Buf 28) :
    (key_at_current_pid pid adj).1.head? = some (Fin.ofNat (pid % 256)) := rfl

/-- C9, the code at the failing input: process 200 has the recorded parent 100, whose chain ends
there; the policy table holds `/etc/passwd` both under the name `parent` of process 100 and
under the id 100; yet whenever the 28 bytes found next to `current_pid` in the second
iteration are not all zero, the walk from 200 for `/etc/passwd` returns 0. -/
theorem walk_misses_policy_of_ancestor :
    ancestor maps_child 1 200 = some 100 ∧
    maps_child.parent_map.lookup 100 = none ∧
    maps_child.app_file_map.lookup name_parent = some path_passwd ∧
    maps_child.app_file_map.lookup (id_label 100) = some path_passwd ∧
    is_restricted_process maps_child path_passwd 2 adjacent_sample 200 = some 0 ∧
    (∀ adjacent : Nat → Buf 28, adjacent 1 ≠ Buf.zero 28 → ∀ fuel, 2 ≤ fuel →
      is_restricted_process maps_child path_passwd fuel adjacent 200 = some 0) := by
  refine ⟨by decide, by decide, by decide, by decide, by decide, ?_⟩
  intro adjacent hadj fuel hfuel
  obtain ⟨f, rfl⟩ : ∃ f, fuel = f + 2 := ⟨fuel - 2, by omega⟩
  have hp : maps_child.parent_map.lookup 200 = some 100 := by decide
  have hend : maps_child.parent_map.lookup 100 = none := by decide
  have hmiss200 : maps_child.app_file_map.lookup (key_at_current_pid 200 (adjacent 0)) = none := by
    apply maps_child_lookup_none
    · intro h
      have hh := congrArg (fun b : Buf 32 => b.1.head?) h
      simp only [key_at_current_pid_head] at hh
      exact absurd hh (by decide)
    · intro h
      have hh := congrArg (fun b : Buf 32 => b.1.head?) h
      simp only [key_at_current_pid_head] at hh
      exact absurd hh (by decide)
  have hmiss100 : maps_child.app_file_map.lookup (key_at_current_pid 100 (adjacent 1)) = none := by
    apply maps_child_lookup_none
    · intro h
      apply hadj
      have hval : (id_label 100).1 = le32 100 ++ (Buf.zero 28).1 := by decide
      have hh : le32 100 ++ (Buf.zero 28).1 = le32 100 ++ (adjacent 1).1 := by
        rw [← hval, h]
        rfl
      exact Subtype.ext (List.append_cancel_left hh).symm
    · intro h
      have hh := congrArg (fun b : Buf 32 => b.1.head?) h
      simp only [key_at_current_pid_head] at hh
      exact absurd hh (by decide)
  rw [is_restricted_process_succ, hmiss200, if_neg (by simp), hp]
  simp only []
  rw [is_restricted_process_succ, hmiss100, if_neg (by simp), hend]

/-! ### The staging table -/

namespace BpfHash

variable {K V : Type} [DecidableEq K] {cap : Nat}

theorem update_lookup_ne (m : BpfHash K V cap) (k k2 : K) (v : V) (h : k2 ≠ k) :
    (m.update k v).2.lookup k2 = m.lookup k2 := by
  unfold update lookup
  by_cases hsome : (lookupList k m.entries).isSome
  · rw [dif_pos hsome]
    exact lookupList_replaceList_ne k k2 v m.entries h
  · rw [dif_neg hsome]
    by_cases hroom : m.entries.length < cap
    · rw [dif_pos hroom]
      have h3 : ¬ k = k2 := fun e => h e.symm
      simp [lookupList, h3]
    · rw [dif_neg hroom]

theorem update_lookup_self (m : BpfHash K V cap) (k : K) (v : V)
    (h : (m.lookup k).isSome ∨ m.count < cap) : (m.update k v).2.lookup k = some v := by
  unfold update lookup
  by_cases hsome : (lookupList k m.entries).isSome
  · rw [dif_pos hsome]
    exact lookupList_replaceList_self k v m.entries hsome
  · rw [dif_neg hsome]
    have hroom : m.entries.length < cap := h.resolve_left hsome
    rw [dif_pos hroom]
    simp [lookupList]

theorem update_full_new (m : BpfHash K V cap) (k : K) (v : V)
    (hnew : m.lookup k = none) (hfull : ¬ m.count < cap) : m.update k v = (-E2BIG, m) := by
  unfold update
  have hsome : ¬ (lookupList k m.entries).isSome := by
    unfold lookup at hnew
    rw [hnew]
    simp
  have hfull1 : ¬ m.entries.length < cap := hfull
  rw [dif_neg hsome, dif_neg hfull1]

theorem update_keys_subset (m : BpfHash K V cap) (k : K) (v : V) :
    ∀ x, x ∈ (m.update k v).2.entries.map Prod.fst → x = k ∨ x ∈ m.entries.map Prod.fst := by
  intro x hx
  unfold update at hx
  by_cases hsome : (lookupList k m.entries).isSome
  · rw [dif_pos hsome] at hx
    right
    simpa only [map_fst_replaceList] using hx
  · rw [dif_neg hsome] at hx
    by_cases hroom : m.entries.length < cap
    · rw [dif_pos hroom] at hx
      simpa using hx
    · rw [dif_neg hroom] at hx
      exact Or.inr hx

/-- A key outside a map whose keys all come from a list of at most `cap` ids that also holds
the key finds room in the map. -/
theorem room_of_keys_subset (m : BpfHash K V cap) (ids : List K)
    (hcap : ids.length ≤ cap) (hkeys : ∀ x, x ∈ m.entries.map Prod.fst → x ∈ ids)
    (k : K) (hk : k ∈ ids) (hnew : m.lookup k = none) : m.count < cap := by
  have hnot : k ∉ m.entries.map Prod.fst := (lookupList_eq_none k m.entries).1 hnew
  have hnd : (k :: m.entries.map Prod.fst).Nodup := List.nodup_cons.2 ⟨hnot, m.nodup⟩
  have hsub : (k :: m.entries.map Prod.fst) ⊆ ids := by
    intro x hx
    rcases List.mem_cons.1 hx with h | h
    · exact h ▸ hk
    · exact hkeys x h
  have hle := (List.subperm_of_subset hnd hsub).length_le
  have hlen : (k :: m.entries.map Prod.fst).length = m.entries.length + 1 := by simp
  unfold count
  omega

end BpfHash


theorem tracepoint_staging (m : Maps) (ctx : TraceCtx) :
    (tracepoint_sys_enter_openat m ctx).2.current_task_map =
      match staging_write ctx with
      | none => m.current_task_map
      | some (pid, path) => (m.current_task_map.update pid path).2 := by
  unfold tracepoint_sys_enter_openat staging_write
  cases hc : ctx.comm with
  | none => rfl
  | some N =>
    cases hu : ctx.user_file_path with
    | none => rfl
    | some mem =>
      by_cases hpos : (bpf_probe_read_user_str (Buf.zero 128) mem).1 > 0
      · simp only [hpos, if_true]
        cases ht : ctx.task with
        | none => rfl
        | some t => cases t <;> rfl
      · simp only [hpos, if_false]

theorem staging_write_pid (ctx : TraceCtx) (q : Nat) (path : Buf 128)
    (h : staging_write ctx = some (q, path)) : q = pid_of ctx.pid_tgid := by
  unfold staging_write at h
  cases hc : ctx.comm with
  | none => simp [hc] at h
  | some N =>
    cases hu : ctx.user_file_path with
    | none => simp [hc, hu] at h
    | some mem =>
      by_cases hpos : (bpf_probe_read_user_str (Buf.zero 128) mem).1 > 0
      · simp [hc, hu, hpos] at h
        exact h.1.symm
      · simp [hc, hu, hpos] at h

/-- Frame property of one invocation: the staged path of every other process id is kept. -/
theorem tracepoint_staging_frame (m : Maps) (ctx : TraceCtx) (b : Nat)
    (hb : b ≠ pid_of ctx.pid_tgid) :
    (tracepoint_sys_enter_openat m ctx).2.current_task_map.lookup b =
      m.current_task_map.lookup b := by
  rw [tracepoint_staging]
  cases hw : staging_write ctx with
  | none => rfl
  | some w =>
    obtain ⟨q, path⟩ := w
    have hq := staging_write_pid ctx q path hw
    exact BpfHash.update_lookup_ne _ _ _ _ (by rw [hq]; exact hb)

theorem run_tracepoints_cons (m : Maps) (ctx : TraceCtx) (rest : List TraceCtx) :
    run_tracepoints m (ctx :: rest) =
      run_tracepoints (tracepoint_sys_enter_openat m ctx).2 rest := rfl

/-- Invocations that make no staging write for `pid` keep the staged path of `pid`. -/
theorem run_tracepoints_untouched (pid : Nat) :
    ∀ (seq : List TraceCtx) (m : Maps), last_staged pid seq = none →
      (run_tracepoints m seq).current_task_map.lookup pid = m.current_task_map.lookup pid
  | [], _, _ => rfl
  | ctx :: rest, m, h => by
    rw [run_tracepoints_cons]
    cases hr : last_staged pid rest with
    | some path => simp [last_staged, hr] at h
    | none =>
      rw [run_tracepoints_untouched pid rest _ hr, tracepoint_staging]
      cases hw : staging_write ctx with
      | none => rfl
      | some w =>
        obtain ⟨q, path⟩ := w
        by_cases hq : q = pid
        · simp [last_staged, hr, hw, hq] at h
        · exact BpfHash.update_lookup_ne _ _ _ _ (fun e => hq e.symm)


theorem tracepoint_staging_keys (m : Maps) (ctx : TraceCtx) (ids : List Nat)
    (hkeys : ∀ x, x ∈ m.current_task_map.entries.map Prod.fst → x ∈ ids)
    (hpid : pid_of ctx.pid_tgid ∈ ids) :
    ∀ x, x ∈ (tracepoint_sys_enter_openat m ctx).2.current_task_map.entries.map Prod.fst →
      x ∈ ids := by
  intro x hx
  rw [tracepoint_staging] at hx
  cases hw : staging_write ctx with
  | none =>
    rw [hw] at hx
    exact hkeys x hx
  | some w =>
    obtain ⟨q, path⟩ := w
    rw [hw] at hx
    rcases BpfHash.update_keys_subset _ _ _ x hx with h | h
    · rw [h, staging_write_pid ctx q path hw]
      exact hpid
    · exact hkeys x h

/-- Read-back along a sequence of invocations whose process ids, together with the ids already
staged, come from a list of at most 1024 ids. -/
theorem run_tracepoints_read_back (ids : List Nat) (hcap : ids.length ≤ 1024) (pid : Nat)
    (path : Buf 128) :
    ∀ (seq : List TraceCtx) (m : Maps),
      (∀ x, x ∈ m.current_task_map.entries.map Prod.fst → x ∈ ids) →
      (∀ ctx, ctx ∈ seq → pid_of ctx.pid_tgid ∈ ids) →
      last_staged pid seq = some path →
      (run_tracepoints m seq).current_task_map.lookup pid = some path
  | [], _, _, _, h => by simp [last_staged] at h
  | ctx :: rest, m, hkeys, hpids, h => by
    rw [run_tracepoints_cons]
    have hpid : pid_of ctx.pid_tgid ∈ ids := hpids ctx (List.mem_cons_self _ _)
    have hkeys1 := tracepoint_staging_keys m ctx ids hkeys hpid
    have hrest : ∀ c, c ∈ rest → pid_of c.pid_tgid ∈ ids :=
      fun c hc => hpids c (List.mem_cons_of_mem _ hc)
    cases hr : last_staged pid rest with
    | some p =>
      have hp : p = path := by simpa [last_staged, hr] using h
      exact run_tracepoints_read_back ids hcap pid path rest _ hkeys1 hrest (hp ▸ hr)
    | none =>
      rw [run_tracepoints_untouched pid rest _ hr, tracepoint_staging]
      cases hw : staging_write ctx with
      | none => simp [last_staged, hr, hw] at h
      | some w =>
        obtain ⟨q, path1⟩ := w
        by_cases hq : q = pid
        · have hp : path1 = path := by simpa [last_staged, hr, hw, hq] using h
          subst hq
          subst hp
          apply BpfHash.update_lookup_self
          cases hl : m.current_task_map.lookup q with
          | some old => exact Or.inl rfl
          | none =>
            right
            exact BpfHash.room_of_keys_subset m.current_task_map ids hcap hkeys q
              (by rw [staging_write_pid ctx q path1 hw]; exact hpid) hl
        · simp [last_staged, hr, hw, hq] at h

/-- C6 (as amended): for a sequence of entry-stage invocations whose process ids, together
with the ids already in the staging table, come from a list of at most 1024 ids (the
capacity of the table), reading the staging table back for a process id returns the path
most recently staged by that id; and for any process ids at all, an invocation by an id `a`
never changes the staged path of an id `b` other than `a`. -/
theorem staging_read_back_within_capacity (ids : List Nat) (hcap : ids.length ≤ 1024)
    (m : Maps) (seq : List TraceCtx)
    (hkeys : ∀ x, x ∈ m.current_task_map.entries.map Prod.fst → x ∈ ids)
    (hpids : ∀ ctx, ctx ∈ seq → pid_of ctx.pid_tgid ∈ ids) :
    (∀ pid path, last_staged pid seq = some path →
      (run_tracepoints m seq).current_task_map.lookup pid = some path) ∧
    (∀ (m1 : Maps) (ctx : TraceCtx) (b : Nat), b ≠ pid_of ctx.pid_tgid →
      (tracepoint_sys_enter_openat m1 ctx).2.current_task_map.lookup b =
        m1.current_task_map.lookup b) :=
  ⟨fun pid path h => run_tracepoints_read_back ids hcap pid path seq m hkeys hpids h,
   fun m1 ctx b hb => tracepoint_staging_frame m1 ctx b hb⟩

/-- Witness for C6 (as amended): processes 1, 2 and 1 again stage a path into empty maps. -/
theorem staging_read_back_within_capacity_witness :
    (∀ pid path, last_staged pid [stage_ctx 1, stage_ctx 2, stage_ctx 1] = some path →
      (run_tracepoints maps_empty [stage_ctx 1, stage_ctx 2, stage_ctx 1]).current_task_map.lookup
        pid = some path) ∧
    (∀ (m1 : Maps) (ctx : TraceCtx) (b : Nat), b ≠ pid_of ctx.pid_tgid →
      (tracepoint_sys_enter_openat m1 ctx).2.current_task_map.lookup b =
        m1.current_task_map.lookup b) :=
  staging_read_back_within_capacity [1, 2] (by decide) maps_empty
    [stage_ctx 1, stage_ctx 2, stage_ctx 1] (fun x hx => by simp [maps_empty, BpfHash.empty] at hx)
    (by decide)


/-! ### A full staging table -/

theorem BpfHash.update_entries_new {K V : Type} [DecidableEq K] {cap : Nat}
    (m : BpfHash K V cap) (k : K) (v : V) (hnew : m.lookup k = none) (hroom : m.count < cap) :
    (m.update k v).2.entries = (k, v) :: m.entries := by
  unfold BpfHash.update
  have hsome : ¬ (lookupList k m.entries).isSome := by
    unfold BpfHash.lookup at hnew
    rw [hnew]
    simp
  have hroom1 : m.entries.length < cap := hroom
  rw [dif_neg hsome, dif_pos hroom1]

theorem pid_of_shifted (i : Nat) (hi : i < 2 ^ 32) : pid_of (i * 2 ^ 32) = i := by
  unfold pid_of
  rw [Nat.shiftRight_eq_div_pow]
  have h1 : i * 2 ^ 32 < 2 ^ 64 := by
    have : (2 : Nat) ^ 64 = 2 ^ 32 * 2 ^ 32 := by norm_num
    rw [this]
    exact Nat.mul_lt_mul_of_pos_right hi (by norm_num)
  rw [Nat.mod_eq_of_lt h1, Nat.mul_div_cancel _ (by norm_num : 0 < 2 ^ 32), Nat.mod_eq_of_lt hi]

theorem staging_write_stage_ctx (i : Nat) (hi : i < 2 ^ 32) :
    staging_write (stage_ctx i) = some (i, path_root) := by
  have hpos : (bpf_probe_read_user_str (Buf.zero 128) (some [47])).1 > 0 := by decide
  have hpid : pid_of (stage_ctx i).pid_tgid = i := pid_of_shifted i hi
  simp only [staging_write, stage_ctx, hpos, if_true, path_root]
  simp only [stage_ctx] at hpid
  rw [hpid]

theorem run_tracepoints_append_single (m : Maps) (l : List TraceCtx) (c : TraceCtx) :
    run_tracepoints m (l ++ [c]) = (tracepoint_sys_enter_openat (run_tracepoints m l) c).2 := by
  simp [run_tracepoints, List.foldl_append]

theorem last_staged_append_single (pid : Nat) (path : Buf 128) (c : TraceCtx)
    (hc : staging_write c = some (pid, path)) :
    ∀ l : List TraceCtx, last_staged pid (l ++ [c]) = some path
  | [] => by simp [last_staged, hc]
  | x :: l => by
    rw [List.cons_append, last_staged, last_staged_append_single pid path c hc l]

/-- Staging table after processes `0, ..., n - 1` have each staged a path into empty maps. -/
theorem run_tracepoints_range : ∀ n, n ≤ 1024 →
    (run_tracepoints maps_empty ((List.range n).map stage_ctx)).current_task_map.entries =
      ((List.range n).map (fun i => (i, path_root))).reverse
  | 0, _ => rfl
  | n + 1, hn => by
    have ih := run_tracepoints_range n (Nat.le_of_succ_le hn)
    rw [List.range_succ, List.map_append, List.map_singleton, run_tracepoints_append_single,
      tracepoint_staging, staging_write_stage_ctx n (by omega)]
    have hnew : (run_tracepoints maps_empty ((List.range n).map stage_ctx)).current_task_map.lookup n
        = none := by
      unfold BpfHash.lookup
      rw [lookupList_eq_none, ih]
      simp
    have hroom : (run_tracepoints maps_empty ((List.range n).map stage_ctx)).current_task_map.count
        < 1024 := by
      unfold BpfHash.count
      rw [ih]
      simp
      omega
    simp only []
    rw [BpfHash.update_entries_new _ n path_root hnew hroom, ih]
    simp

/-- Process `n` stages a path after processes `0, ..., n - 1` filled the staging table. -/
theorem staging_write_dropped_at (n : Nat) (hn : n = 1024) :
    last_staged n ((List.range (n + 1)).map stage_ctx) = some path_root ∧
    (run_tracepoints maps_empty ((List.range (n + 1)).map stage_ctx)).current_task_map.lookup n
      = none := by
  have hw := staging_write_stage_ctx n (by rw [hn]; norm_num)
  have hsplit : (List.range (n + 1)).map stage_ctx =
      (List.range n).map stage_ctx ++ [stage_ctx n] := by
    rw [List.range_succ, List.map_append, List.map_singleton]
  have hfull := run_tracepoints_range n (le_of_eq hn)
  rw [hsplit]
  refine ⟨last_staged_append_single n path_root _ hw _, ?_⟩
  rw [run_tracepoints_append_single, tracepoint_staging, hw]
  have hnew : (run_tracepoints maps_empty ((List.range n).map stage_ctx)).current_task_map.lookup
      n = none := by
    unfold BpfHash.lookup
    rw [lookupList_eq_none, hfull]
    simp
  have hnoroom : ¬ (run_tracepoints maps_empty ((List.range n).map stage_ctx)).current_task_map.count
      < 1024 := by
    unfold BpfHash.count
    rw [hfull]
    simp
    omega
  simp only []
  rw [BpfHash.update_full_new _ n path_root hnew hnoroom]
  exact hnew

/-- C6, counterexample: processes `0, ..., 1024` each stage a path once, starting from empty
maps; process 1024 has staged a path, yet reading the staging table back for it finds
nothing, because its write met a table already holding 1024 ids. -/
theorem staging_write_dropped_when_full :
    last_staged 1024 ((List.range (1024 + 1)).map stage_ctx) = some path_root ∧
    (run_tracepoints maps_empty
      ((List.range (1024 + 1)).map stage_ctx)).current_task_map.lookup 1024 = none :=
  staging_write_dropped_at 1024 rfl


/-! ## Properties of supernanny_module.c -/

/-- A write of exactly `PAGE_SIZE` bytes into the fresh buffer passes the size check and puts
the terminating NUL at index `PAGE_SIZE`. -/
theorem proc_write_full_page (PAGE_SIZE : Nat) (hP : PAGE_SIZE < 2 ^ 64) (region buffer : List Byte)
    (hregion : region.length = PAGE_SIZE) (hbuffer : buffer.length = PAGE_SIZE) :
    super_nanny_proc_write PAGE_SIZE { file_buffer := region, buffer_size := 0 } buffer none =
      WriteOutcome.out_of_bounds PAGE_SIZE := by
  unfold super_nanny_proc_write
  have hmod : PAGE_SIZE % 18446744073709551616 = PAGE_SIZE :=
    Nat.mod_eq_of_lt (by norm_num at hP; exact hP)
  have hlen : (blit region 0 buffer).length = PAGE_SIZE := by
    simp [blit, hregion, hbuffer]
  simp [hbuffer, hmod, store_byte, hlen]

/-- C10, the code at the failing input: with a page of 4096 bytes, the first write after module
load, of 4096 bytes, is accepted by the size check and stores its terminating NUL at index
4096, one past the last byte of the 4096-byte buffer. -/
theorem proc_write_nul_past_buffer :
    super_nanny_proc_write 4096 { file_buffer := List.replicate 4096 0, buffer_size := 0 }
      (List.replicate 4096 65) none = WriteOutcome.out_of_bounds 4096 :=
  proc_write_full_page 4096 (by norm_num) _ _ (List.length_replicate _ _)
    (List.length_replicate _ _)


/-! ## Properties of exec_intercept.c -/

/-- C4, counterexample: the single record `a:` followed by a path of 128 bytes `x`, loaded into
an empty map, is filed under the key `a` with 127 bytes `x` and a NUL as byte 127, not with
the 128 bytes of the path. -/
theorem loader_cuts_path_at_127 :
    (main (some BpfHash.empty) (some (some (policy_text [rec_long_path])))).loaded.map
      (fun m => m.lookup (Buf.ofList 32 [97])) =
        some (some (Buf.ofList 128 (List.replicate 127 120))) ∧
    Buf.ofList 128 (List.replicate 127 120) ≠ Buf.ofList 128 rec_long_path.2 := by
  decide


theorem strtok_lines_append (rest : List Byte) :
    ∀ (l cur : List Byte), (10 : Byte) ∉ l →
      strtok_lines (l ++ rest) cur = strtok_lines rest (cur ++ l)
  | [], cur, _ => by simp
  | b :: l, cur, h => by
    have hb : ¬ b = 10 := fun e => h (by simp [e])
    have hl : (10 : Byte) ∉ l := fun e => h (List.mem_cons_of_mem _ e)
    rw [List.cons_append, strtok_lines, if_neg hb, strtok_lines_append rest l (cur ++ [b]) hl]
    simp

theorem render_ne_nil (r : List Byte × List Byte) : render r ≠ [] := by
  simp [render]

theorem not_mem_render (c : Byte) (r : List Byte × List Byte) (hc : c ≠ 58) (h1 : c ∉ r.1)
    (h2 : c ∉ r.2) : c ∉ render r := by
  simp [render, h1, h2, hc]

theorem strtok_lines_policy_text :
    ∀ recs : List (List Byte × List Byte), (∀ r, r ∈ recs → (10 : Byte) ∉ render r) →
      strtok_lines (policy_text recs) [] = recs.map render
  | [], _ => rfl
  | [r], h => by
    have h1 := strtok_lines_append [] (render r) [] (h r (List.mem_singleton_self r))
    rw [List.append_nil, List.nil_append] at h1
    rw [policy_text, h1, strtok_lines, if_neg (render_ne_nil r)]
    rfl
  | r :: r2 :: rest, h => by
    have h1 := strtok_lines_append (10 :: policy_text (r2 :: rest)) (render r) []
      (h r (List.mem_cons_self _ _))
    rw [List.nil_append] at h1
    rw [policy_text, h1, strtok_lines, if_pos rfl, if_neg (render_ne_nil r),
      strtok_lines_policy_text (r2 :: rest) (fun x hx => h x (List.mem_cons_of_mem _ hx))]
    rfl

theorem not_mem_policy_text (c : Byte) (hc : c ≠ 10) :
    ∀ recs : List (List Byte × List Byte), (∀ r, r ∈ recs → c ∉ render r) →
      c ∉ policy_text recs
  | [], _ => by simp [policy_text]
  | [r], h => by
    rw [policy_text]
    exact h r (List.mem_singleton_self r)
  | r :: r2 :: rest, h => by
    rw [policy_text]
    intro hmem
    rcases List.mem_append.1 hmem with h1 | h1
    · exact h r (List.mem_cons_self _ _) h1
    · rcases List.mem_cons.1 h1 with h2 | h2
      · exact hc h2
      · exact not_mem_policy_text c hc (r2 :: rest)
          (fun x hx => h x (List.mem_cons_of_mem _ hx)) h2

theorem cstr_eq_self (l : List Byte) (h : (0 : Byte) ∉ l) : cstr l = l := by
  unfold cstr
  rw [List.takeWhile_eq_self_iff]
  intro x hx
  have : x ≠ 0 := fun e => h (e ▸ hx)
  simpa using this

theorem strchr_append (c : Byte) (rest : List Byte) :
    ∀ l : List Byte, c ∉ l → strchr c (l ++ c :: rest) = some l.length
  | [], _ => by simp [strchr]
  | b :: l, h => by
    have hb : ¬ b = c := fun e => h (by simp [e])
    have hl : c ∉ l := fun e => h (List.mem_cons_of_mem _ e)
    rw [List.cons_append, strchr, if_neg hb, strchr_append c rest l hl]
    rfl

/-- The name is recovered from its key: zero padding adds no byte before the first NUL. -/
theorem cstr_rec_key (r : List Byte × List Byte) (hlen : r.1.length < 32) (h0 : (0 : Byte) ∉ r.1) :
    cstr (rec_key r).1 = r.1 := by
  unfold rec_key Buf.ofList cstr
  simp only []
  rw [List.take_append_eq_append_take, List.take_of_length_le (le_of_lt hlen),
    List.take_replicate]
  have hmin : min (32 - r.1.length) 32 = (32 - r.1.length - 1) + 1 := by omega
  rw [hmin, List.replicate_succ, List.takeWhile_append]
  have hself : List.takeWhile (fun b => decide (b ≠ 0)) r.1 = r.1 := cstr_eq_self r.1 h0
  rw [hself]
  simp

theorem rec_key_injective (r1 r2 : List Byte × List Byte) (h1 : well_formed r1)
    (h2 : well_formed r2) (h : rec_key r1 = rec_key r2) : r1.1 = r2.1 := by
  rw [← cstr_rec_key r1 h1.1 h1.2.2.2.1, ← cstr_rec_key r2 h2.1 h2.2.2.2.1, h]


theorem BpfHash.update_ok {K V : Type} [DecidableEq K] {cap : Nat} (m : BpfHash K V cap)
    (k : K) (v : V) (h : (m.lookup k).isSome ∨ m.count < cap) : (m.update k v).1 = 0 := by
  unfold BpfHash.update
  by_cases hsome : (lookupList k m.entries).isSome
  · rw [dif_pos hsome]
  · rw [dif_neg hsome]
    have hroom : m.entries.length < cap := h.resolve_left hsome
    rw [dif_pos hroom]

theorem load_lines_render (r : List Byte × List Byte) (hr : well_formed r)
    (rest : List (List Byte)) (m : PolicyMap) :
    load_lines (render r :: rest) m =
      if (m.update (rec_key r) (rec_value r)).1 < 0 then
        LoaderOutcome.exit 1 (some (m.update (rec_key r) (rec_value r)).2)
      else load_lines rest (m.update (rec_key r) (rec_value r)).2 := by
  have hchr : strchr 58 (render r) = some r.1.length := strchr_append 58 r.2 r.1 hr.2.1
  have hnot : ¬ MAX_KEY ≤ r.1.length := by
    unfold MAX_KEY
    have := hr.1
    omega
  have htake : (render r).take r.1.length = r.1 := by
    unfold render
    rw [List.take_append_eq_append_take]
    simp
  have hdrop : (render r).drop (r.1.length + 1) = r.2 := by
    unfold render
    rw [List.drop_append_eq_append_drop]
    simp
  rw [load_lines]
  simp only [hchr, if_neg hnot, htake, hdrop]
  rfl

/-- The loop over the lines of well-formed records whose keys find room: it ends with exit
code 0 and every key holds the value of its last record, or its former value if no record
names it. -/
theorem load_lines_rendered (ids : List (Buf 32)) (hcap : ids.length ≤ 1024) :
    ∀ (recs : List (List Byte × List Byte)) (m : PolicyMap),
      (∀ r, r ∈ recs → well_formed r) →
      (∀ x, x ∈ m.entries.map Prod.fst → x ∈ ids) →
      (∀ r, r ∈ recs → rec_key r ∈ ids) →
      ∃ m1, load_lines (recs.map render) m = LoaderOutcome.exit 0 (some m1) ∧
        ∀ k, m1.lookup k =
          match last_value k recs with
          | some v => some v
          | none => m.lookup k
  | [], m, _, _, _ => ⟨m, rfl, fun _ => rfl⟩
  | r :: rest, m, hwf, hkeys, hrecs => by
    have hr : well_formed r := hwf r (List.mem_cons_self _ _)
    have hrk : rec_key r ∈ ids := hrecs r (List.mem_cons_self _ _)
    have hroom : (m.lookup (rec_key r)).isSome ∨ m.count < 1024 := by
      cases hl : m.lookup (rec_key r) with
      | some old => exact Or.inl rfl
      | none => exact Or.inr (BpfHash.room_of_keys_subset m ids hcap hkeys _ hrk hl)
    have hok : ¬ (m.update (rec_key r) (rec_value r)).1 < 0 := by
      rw [BpfHash.update_ok m _ _ hroom]
      decide
    have hkeys1 : ∀ x, x ∈ (m.update (rec_key r) (rec_value r)).2.entries.map Prod.fst → x ∈ ids := by
      intro x hx
      rcases BpfHash.update_keys_subset m _ _ x hx with h | h
      · exact h ▸ hrk
      · exact hkeys x h
    obtain ⟨m1, hload, hlook⟩ := load_lines_rendered ids hcap rest
      (m.update (rec_key r) (rec_value r)).2
      (fun x hx => hwf x (List.mem_cons_of_mem _ hx)) hkeys1
      (fun x hx => hrecs x (List.mem_cons_of_mem _ hx))
    refine ⟨m1, ?_, ?_⟩
    · rw [List.map_cons, load_lines_render r hr, if_neg hok]
      exact hload
    · intro k
      rw [hlook k, last_value]
      cases hlast : last_value k rest with
      | some v => rfl
      | none =>
        by_cases hk : rec_key r = k
        · simp only [if_pos hk]
          rw [← hk]
          exact BpfHash.update_lookup_self m _ _ hroom
        · simp only [if_neg hk]
          exact BpfHash.update_lookup_ne m _ _ _ (fun e => hk e.symm)

theorem last_value_none (k : Buf 32) :
    ∀ recs : List (List Byte × List Byte), (∀ r, r ∈ recs → rec_key r ≠ k) →
      last_value k recs = none
  | [], _ => rfl
  | r :: rest, h => by
    rw [last_value, last_value_none k rest (fun x hx => h x (List.mem_cons_of_mem _ hx)),
      if_neg (h r (List.mem_cons_self _ _))]

theorem last_value_split (rec : List Byte × List Byte) (post : List (List Byte × List Byte))
    (hpost : ∀ r, r ∈ post → rec_key r ≠ rec_key rec) :
    ∀ pre : List (List Byte × List Byte),
      last_value (rec_key rec) (pre ++ rec :: post) = some (rec_value rec)
  | [] => by
    rw [List.nil_append, last_value, last_value_none _ post hpost, if_pos rfl]
  | x :: pre => by
    rw [List.cons_append, last_value, last_value_split rec post hpost pre]


/-- C4 (as amended): for a text of at most 1023 bytes made of newline-separated `name:path`
records whose names are shorter than 32 bytes (names free of colon, newline and NUL, paths
free of newline and NUL), loaded into a policy table in which the keys of the records find
room (they and the keys already present come from a list of at most 1024 keys), the
loader exits with code 0 and, for every record that is the last one for its name, the
table maps the 32-byte zero-padded name to the first 127 bytes of the path zero-padded to
128 bytes. -/
theorem loader_files_last_record (ids : List (Buf 32)) (hcap : ids.length ≤ 1024)
    (m0 : PolicyMap) (recs : List (List Byte × List Byte))
    (hwf : ∀ r, r ∈ recs → well_formed r)
    (hlen : (policy_text recs).length ≤ 1023)
    (hkeys : ∀ x, x ∈ m0.entries.map Prod.fst → x ∈ ids)
    (hrecs : ∀ r, r ∈ recs → rec_key r ∈ ids) :
    ∃ m1, main (some m0) (some (some (policy_text recs))) = LoaderOutcome.exit 0 (some m1) ∧
      ∀ pre name path post, recs = pre ++ (name, path) :: post →
        (∀ r, r ∈ post → r.1 ≠ name) →
        m1.lookup (Buf.ofList 32 name) = some (Buf.ofList 128 (path.take 127)) := by
  have hnl : ∀ r, r ∈ recs → (10 : Byte) ∉ render r := fun r hr =>
    not_mem_render 10 r (by decide) (hwf r hr).2.2.1 (hwf r hr).2.2.2.2.1
  have hnul : ∀ r, r ∈ recs → (0 : Byte) ∉ render r := fun r hr =>
    not_mem_render 0 r (by decide) (hwf r hr).2.2.2.1 (hwf r hr).2.2.2.2.2
  have htake : (policy_text recs).take (1024 - 1) = policy_text recs :=
    List.take_of_length_le hlen
  have hcstr : cstr (policy_text recs) = policy_text recs :=
    cstr_eq_self _ (not_mem_policy_text 0 (by decide) recs hnul)
  obtain ⟨m1, hload, hlook⟩ := load_lines_rendered ids hcap recs m0 hwf hkeys hrecs
  refine ⟨m1, ?_, ?_⟩
  · unfold main
    simp only [htake, hcstr, strtok_lines_policy_text recs hnl]
    exact hload
  · intro pre name path post hsplit hlast
    have hmem : (name, path) ∈ recs := by
      rw [hsplit]
      exact List.mem_append_right _ (List.mem_cons_self _ _)
    have hpost : ∀ r, r ∈ post → rec_key r ≠ rec_key (name, path) := by
      intro r hr hk
      have hrmem : r ∈ recs := by
        rw [hsplit]
        exact List.mem_append_right _ (List.mem_cons_of_mem _ hr)
      exact hlast r hr (rec_key_injective r (name, path) (hwf r hrmem) (hwf _ hmem) hk)
    have hval := last_value_split (name, path) post hpost pre
    rw [← hsplit] at hval
    have hk := hlook (rec_key (name, path))
    rw [hval] at hk
    exact hk

/-- Witness for C4 (as amended): the records `sh:/etc/passwd`, `ls:/etc/hosts`, `sh:/etc/hosts`
loaded into an empty map; `sh` ends up mapped to `/etc/hosts`. -/
theorem loader_files_last_record_witness :
    (∃ m1, main (some BpfHash.empty) (some (some (policy_text recs_sample))) =
        LoaderOutcome.exit 0 (some m1) ∧
      ∀ pre name path post, recs_sample = pre ++ (name, path) :: post →
        (∀ r, r ∈ post → r.1 ≠ name) →
        m1.lookup (Buf.ofList 32 name) = some (Buf.ofList 128 (path.take 127))) ∧
    (main (some BpfHash.empty) (some (some (policy_text recs_sample)))).loaded.map
      (fun m => m.lookup (Buf.ofList 32 [115, 104])) = some (some path_hosts) :=
  ⟨loader_files_last_record [Buf.ofList 32 [115, 104], Buf.ofList 32 [108, 115]] (by decide)
      BpfHash.empty recs_sample (by decide) (by decide)
      (fun x hx => by simp [BpfHash.empty] at hx) (by decide),
    by decide⟩

end SupperNanny
